import Mathlib

/-!
# Shallow embedding of the calendar_bot scheduling core

This file embeds the interval algebra (`src/cal/interval.rs`) and the
calendar engine (`src/cal/mod.rs`) of the `calendar_bot` repository and
proves properties of the embedded definitions.

Modelling conventions:
* `DateTime<Utc>` timestamps are modelled as `Int` (seconds on an absolute
  timeline); `chrono::Duration` is an `Int` number of seconds (it may be
  negative, as in chrono).
* `Date<Utc>` is an `Int` day index and `NaiveTime` an `Int` second-of-day;
  `Date::and_time` becomes `day * 86400 + timeOfDay`.
* The `assert!` in `Interval::new` (a panic) is modelled by returning
  `none`.
* Rust lazy iterators are modelled either by their (finite) list of outputs
  or, for the hand-rolled `Difference` iterator whose termination is in
  question, by an explicit state-and-step machine.
* `BTreeSet<CmpEvent>` is modelled as a list of events strictly sorted by
  the `CmpEvent` ordering (date, then duration); `BTreeSet::insert` and
  `BTreeSet::range` are modelled on that representation.
-/

namespace CalendarBot

/-- Total-order comparison on `Int`, modelling `Ord::cmp` on timestamps and
durations. -/
def cmpInt (a b : Int) : Ordering :=
  if a < b then Ordering.lt
  else if b < a then Ordering.gt
  else Ordering.eq

/-- `Interval<T>` from `src/cal/interval.rs` at `T = Int`.  The Rust field
`end` is called `stop` here (`end` is a Lean keyword). -/
structure Interval where
  start : Int
  stop : Int
deriving DecidableEq, Repr

/-- `Interval::new` (interval.rs lines 21–28): `assert!(start < end)` then
build the interval.  The panic on `start >= end` is modelled as `none`. -/
def Interval.new (s e : Int) : Option Interval :=
  if s < e then some { start := s, stop := e } else none

/-- `Interval::intersection` (interval.rs lines 30–42). -/
def Interval.intersection (a b : Interval) : Option Interval :=
  let e := min a.stop b.stop
  let s := max a.start b.start
  if s < e then some { start := s, stop := e } else none

/-- The state of the hand-rolled `Difference` iterator
(interval.rs lines 45–48): the remaining part of `self` and the cached
intersection. -/
structure DiffState where
  interval : Interval
  intersection : Option Interval
deriving DecidableEq, Repr

/-- One call to `Difference::next` (interval.rs lines 59–83): returns the
yielded item and the successor state.  Note that in the `None` intersection
branch the Rust code returns `Some(self.interval)` without modifying the
state. -/
def diffNext (st : DiffState) : Option Interval × DiffState :=
  match st.intersection with
  | none => (some st.interval, st)
  | some i =>
    if st.interval.start < i.start then
      (some { start := st.interval.start, stop := i.start },
       { st with interval := { st.interval with start := i.start } })
    else if i.stop < st.interval.stop then
      (some { start := i.stop, stop := st.interval.stop },
       { st with interval := { st.interval with stop := i.stop } })
    else
      (none, st)

/-- `Interval::difference` (interval.rs lines 44–91): the initial iterator
state. -/
def Interval.difference (a b : Interval) : DiffState :=
  { interval := a, intersection := a.intersection b }

/-- The first `n` results of pulling the `Difference` iterator. -/
def diffRun : Nat → DiffState → List (Option Interval)
  | 0, _ => []
  | n + 1, st =>
    let r := diffNext st
    r.1 :: diffRun n r.2

/-- `Event` from `src/cal/mod.rs` (lines 137–143).  `date` is the start
timestamp, `duration` the (possibly negative) length in seconds. -/
structure Event where
  organizer : String
  description : String
  date : Int
  duration : Int
deriving DecidableEq, Repr

/-- An event whose `organizer` and `description` come from
`Event::event_default` (empty strings); the `date` of `event_default` is
always overwritten wherever the Rust code uses it. -/
def anonEvent (d len : Int) : Event :=
  { organizer := "", description := "", date := d, duration := len }

/-- `Event::overlap` (mod.rs lines 146–160): intersection of the occupied
half-open spans, as an anonymous event, or `None` when the computed
duration is not positive. -/
def Event.overlap (a b : Event) : Option Event :=
  let start := max a.date b.date
  let dur := min (a.date + a.duration) (b.date + b.duration) - start
  if 0 < dur then some (anonEvent start dur) else none

/-- `Ord for CmpEvent` (mod.rs lines 199–208): compare by `date`, then by
`duration`. -/
def cmpEvent (a b : Event) : Ordering :=
  let c := cmpInt a.date b.date
  if c = Ordering.eq then cmpInt a.duration b.duration else c

/-- `cmpEvent a b = .lt`, as a `Bool`. -/
def keyLtB (a b : Event) : Bool := cmpEvent a b == Ordering.lt

/-- The strict `CmpEvent` order as a proposition. -/
def keyLt (a b : Event) : Prop :=
  a.date < b.date ∨ (a.date = b.date ∧ a.duration < b.duration)

instance (a b : Event) : Decidable (keyLt a b) := by
  unfold keyLt; infer_instance

/-- The representation invariant of the modelled `BTreeSet<CmpEvent>`: the
event list is strictly sorted by the `CmpEvent` key. -/
def SortedKeys (cal : List Event) : Prop := List.Pairwise keyLt cal

instance (cal : List Event) : Decidable (SortedKeys cal) := by
  unfold SortedKeys; infer_instance

/-- `BTreeSet::insert` on the sorted-list representation: walk to the
insertion point; `none` signals that an element with an equal `CmpEvent`
key is already present (in which case the set is left unchanged and the
stored element keeps its payload). -/
def insertEvent (e : Event) : List Event → Option (List Event)
  | [] => some [e]
  | f :: fs =>
    match cmpEvent e f with
    | Ordering.lt => some (e :: f :: fs)
    | Ordering.eq => none
    | Ordering.gt => (insertEvent e fs).map (fun l => f :: l)

/-- `Cal::add_event` (mod.rs lines 74–76): `BTreeSet::insert`, returning
whether a new key was added together with the updated calendar. -/
def addEvent (cal : List Event) (e : Event) : Bool × List Event :=
  match insertEvent e cal with
  | none => (false, cal)
  | some c => (true, c)

/-- `CmpEvent::from_date` (mod.rs lines 185–192): a probe event at `date`
with the `event_default` duration of zero. -/
def fromDate (d : Int) : Event := anonEvent d 0

/-- `Cal::events_in_cmp` (mod.rs lines 43–49): the `BTreeSet::range` scan
from `from_date(range.start)` (inclusive) to `from_date(range.end)`
(exclusive), modelled on the sorted list. -/
def eventsIn (cal : List Event) (rs re : Int) : List Event :=
  cal.filter (fun e => !keyLtB e (fromDate rs) && keyLtB e (fromDate re))

/-- The gap-building loop of `Cal::free_time_in_cmp` (mod.rs lines 54–68):
given the running cursor, the busy events and the range end, produce one
gap per busy event plus the final remainder, before the positivity
filter. -/
def freeGapsAux (start : Int) : List Event → Int → List Event
  | [], re => [anonEvent start (re - start)]
  | e :: es, re => anonEvent start (e.date - start) :: freeGapsAux (e.date + e.duration) es re

/-- `Cal::free_time_in_cmp` (mod.rs lines 51–72): gaps between the events
of `events_in(range)`, keeping only those with `duration > 0`. -/
def freeTimeIn (cal : List Event) (rs re : Int) : List Event :=
  (freeGapsAux rs (eventsIn cal rs re) re).filter (fun g => decide (0 < g.duration))

/-- `Date::and_time` on the integer model: day index to absolute
timestamp. -/
def andTime (day t : Int) : Int := day * 86400 + t

/-- `Cal::get_proposed_times` (mod.rs lines 116–134): one window per day
from `day` up to `dayEnd` inclusive, each spanning `times.start` to
`times.end` of that day. -/
def proposeFrom (day dayEnd ts te : Int) : List Event :=
  if day ≤ dayEnd then
    anonEvent (andTime day ts) (te - ts) :: proposeFrom (day + 1) dayEnd ts te
  else []
termination_by (dayEnd + 1 - day).toNat
decreasing_by omega

/-- The merge loop of `Cal::find_time` (mod.rs lines 92–113): `p`/`f` are
the current proposed and free intervals, `ps`/`fs` the unconsumed rest of
each sequence. -/
def findTimeLoop (p : Event) (ps : List Event) (f : Event) (fs : List Event)
    (dur : Int) : Option Int :=
  match Event.overlap p f with
  | some x =>
    if dur ≤ x.duration then some x.date
    else
      match cmpEvent p f with
      | Ordering.lt =>
        match ps with
        | [] => none
        | p2 :: ps2 => findTimeLoop p2 ps2 f fs dur
      | Ordering.gt =>
        match fs with
        | [] => none
        | f2 :: fs2 => findTimeLoop p ps f2 fs2 dur
      | Ordering.eq =>
        match fs, ps with
        | [], _ => none
        | _ :: _, [] => none
        | f2 :: fs2, p2 :: ps2 => findTimeLoop p2 ps2 f2 fs2 dur
  | none =>
    match fs, ps with
    | [], _ => none
    | _ :: _, [] => none
    | f2 :: fs2, p2 :: ps2 => findTimeLoop p2 ps2 f2 fs2 dur
termination_by ps.length + fs.length
decreasing_by all_goals (simp only [List.length_cons]; omega)

/-- `Cal::find_time` (mod.rs lines 78–114): pull the first proposed and
free intervals (returning `none` if either sequence is empty) and run the
merge loop. -/
def findTime (cal : List Event) (dayStart dayEnd ts te dur : Int) : Option Int :=
  match proposeFrom dayStart dayEnd ts te with
  | [] => none
  | p :: ps =>
    match freeTimeIn cal (andTime dayStart ts) (andTime dayEnd te) with
    | [] => none
    | f :: fs => findTimeLoop p ps f fs dur

/-- Number of stored events sharing `e`'s `CmpEvent` key. -/
def countKey (cal : List Event) (e : Event) : Nat :=
  (cal.filter (fun f => cmpEvent f e == Ordering.eq)).length

/-! ## Basic lemmas about the comparison functions -/

theorem cmpInt_lt_iff (a b : Int) : cmpInt a b = Ordering.lt ↔ a < b := by
  by_cases h1 : a < b
  · simp [cmpInt, h1]
  · by_cases h2 : b < a <;> simp [cmpInt, h1, h2]

theorem cmpInt_eq_iff (a b : Int) : cmpInt a b = Ordering.eq ↔ a = b := by
  by_cases h1 : a < b
  · simp [cmpInt, h1]; omega
  · by_cases h2 : b < a <;> simp [cmpInt, h1, h2] <;> omega

theorem cmpInt_gt_iff (a b : Int) : cmpInt a b = Ordering.gt ↔ b < a := by
  by_cases h1 : a < b
  · simp [cmpInt, h1]; omega
  · by_cases h2 : b < a <;> simp [cmpInt, h1, h2]

@[simp] theorem cmpInt_self (a : Int) : cmpInt a a = Ordering.eq := by
  simp [cmpInt]

@[simp] theorem anonEvent_date (d l : Int) : (anonEvent d l).date = d := rfl

@[simp] theorem anonEvent_duration (d l : Int) : (anonEvent d l).duration = l := rfl

@[simp] theorem fromDate_date (d : Int) : (fromDate d).date = d := rfl

@[simp] theorem fromDate_duration (d : Int) : (fromDate d).duration = 0 := rfl

theorem cmpEvent_lt_iff (a b : Event) : cmpEvent a b = Ordering.lt ↔ keyLt a b := by
  unfold cmpEvent keyLt
  rcases lt_trichotomy a.date b.date with h | h | h
  · have hl := (cmpInt_lt_iff a.date b.date).mpr h
    simp [hl, h]
  · simp [h, cmpInt_lt_iff]
  · have hg := (cmpInt_gt_iff a.date b.date).mpr h
    simp [hg]
    omega

theorem cmpEvent_eq_iff (a b : Event) :
    cmpEvent a b = Ordering.eq ↔ a.date = b.date ∧ a.duration = b.duration := by
  unfold cmpEvent
  rcases lt_trichotomy a.date b.date with h | h | h
  · have hl := (cmpInt_lt_iff a.date b.date).mpr h
    simp [hl]
    omega
  · simp [h, cmpInt_eq_iff]
  · have hg := (cmpInt_gt_iff a.date b.date).mpr h
    simp [hg]
    omega

theorem cmpEvent_gt_iff (a b : Event) : cmpEvent a b = Ordering.gt ↔ keyLt b a := by
  unfold cmpEvent keyLt
  rcases lt_trichotomy a.date b.date with h | h | h
  · have hl := (cmpInt_lt_iff a.date b.date).mpr h
    simp [hl]
    omega
  · simp [h, cmpInt_gt_iff]
  · have hg := (cmpInt_gt_iff a.date b.date).mpr h
    simp [hg, h]

theorem keyLtB_iff (a b : Event) : keyLtB a b = true ↔ keyLt a b := by
  unfold keyLtB
  rw [← cmpEvent_lt_iff]
  cases cmpEvent a b <;> decide

theorem mem_eventsIn (cal : List Event) (rs re : Int) (e : Event) :
    e ∈ eventsIn cal rs re ↔
      e ∈ cal ∧ ¬ keyLt e (fromDate rs) ∧ keyLt e (fromDate re) := by
  simp [eventsIn, List.mem_filter, keyLtB_iff, Bool.and_eq_true, Bool.not_eq_true',
    ← Bool.not_eq_true, and_assoc]

theorem beqOrdering_iff (o p : Ordering) : (o == p) = true ↔ o = p := by
  cases o <;> cases p <;> decide

@[simp] theorem beqOrdering_eq_refl : (Ordering.eq == Ordering.eq) = true := rfl

@[simp] theorem cmpEvent_self (e : Event) : cmpEvent e e = Ordering.eq := by
  simp [cmpEvent]

theorem insertEvent_isSome (e : Event) (cal : List Event)
    (h : ∀ f ∈ cal, cmpEvent e f ≠ Ordering.eq) :
    ∃ c, insertEvent e cal = some c := by
  induction cal with
  | nil => exact ⟨[e], rfl⟩
  | cons f fs ih =>
    cases hc : cmpEvent e f with
    | lt => exact ⟨e :: f :: fs, by simp [insertEvent, hc]⟩
    | eq => exact absurd hc (h f (by simp))
    | gt =>
      obtain ⟨c, hcc⟩ := ih (fun g hg => h g (by simp [hg]))
      exact ⟨f :: c, by simp [insertEvent, hc, hcc]⟩

theorem insertEvent_none_of_key_mem (e g : Event) :
    ∀ cal : List Event, SortedKeys cal → g ∈ cal → cmpEvent e g = Ordering.eq →
      insertEvent e cal = none := by
  intro cal
  induction cal with
  | nil => intro _ hg _; cases hg
  | cons f fs ih =>
    intro hs hg hk
    rcases List.mem_cons.mp hg with rfl | hg2
    · simp [insertEvent, hk]
    · have hlt : keyLt f g := (List.pairwise_cons.mp hs).1 g hg2
      have hkey := (cmpEvent_eq_iff e g).mp hk
      have hgt : cmpEvent e f = Ordering.gt := by
        rw [cmpEvent_gt_iff]
        unfold keyLt at hlt ⊢
        omega
      have htail := ih (List.pairwise_cons.mp hs).2 hg2 hk
      simp [insertEvent, hgt, htail]

theorem insertEvent_again_none (e : Event) :
    ∀ cal c : List Event, insertEvent e cal = some c → insertEvent e c = none := by
  intro cal
  induction cal with
  | nil =>
    intro c h
    simp [insertEvent] at h
    subst h
    simp [insertEvent]
  | cons f fs ih =>
    intro c h
    cases hc : cmpEvent e f with
    | lt =>
      simp [insertEvent, hc] at h
      subst h
      simp [insertEvent]
    | eq => simp [insertEvent, hc] at h
    | gt =>
      simp [insertEvent, hc] at h
      obtain ⟨c2, hc2, rfl⟩ := h
      simp [insertEvent, hc, ih c2 hc2]

theorem countKey_insert (e : Event) :
    ∀ cal c : List Event, insertEvent e cal = some c →
      countKey c e = countKey cal e + 1 := by
  intro cal
  induction cal with
  | nil =>
    intro c h
    simp [insertEvent] at h
    subst h
    simp [countKey]
  | cons f fs ih =>
    intro c h
    cases hc : cmpEvent e f with
    | lt =>
      simp [insertEvent, hc] at h
      subst h
      simp [countKey, List.filter_cons]
    | eq => simp [insertEvent, hc] at h
    | gt =>
      simp [insertEvent, hc] at h
      obtain ⟨c2, hc2, rfl⟩ := h
      have := ih c2 hc2
      simp [countKey, List.filter_cons] at this ⊢
      split <;> simp [this]

theorem countKey_eq_zero (cal : List Event) (e : Event)
    (h : ∀ f ∈ cal, cmpEvent f e ≠ Ordering.eq) : countKey cal e = 0 := by
  simp only [countKey, List.length_eq_zero, List.filter_eq_nil_iff]
  intro f hf hbe
  exact h f hf ((beqOrdering_iff _ _).mp hbe)

/-! ## Claim theorems -/

/-- C4: for intervals `a` and `b` with `start < stop`, `intersection a b`
is `(max a.start b.start, min a.stop b.stop)` exactly when that start is
strictly below that stop, and `none` otherwise; in particular two
intervals that merely touch at a boundary (`a.stop = b.start`) do not
intersect. -/
theorem intersection_spec (a b : Interval)
    (ha : a.start < a.stop) (hb : b.start < b.stop) :
    (Interval.intersection a b =
      if max a.start b.start < min a.stop b.stop then
        some { start := max a.start b.start, stop := min a.stop b.stop }
      else none) ∧
    (a.stop = b.start → Interval.intersection a b = none) := by
  refine ⟨rfl, fun h => ?_⟩
  unfold Interval.intersection
  rw [if_neg]
  omega

/-- Witness for `intersection_spec`: two overlapping intervals and a
boundary-touching pair. -/
theorem intersection_spec_witness :
    ((Interval.intersection ⟨0, 2⟩ ⟨1, 3⟩ =
      if max (0 : Int) 1 < min (2 : Int) 3 then
        some { start := max (0 : Int) 1, stop := min (2 : Int) 3 }
      else none) ∧
     ((2 : Int) = 2 → Interval.intersection ⟨0, 2⟩ ⟨2, 3⟩ = none)) ∧
    Interval.intersection ⟨0, 2⟩ ⟨1, 3⟩ = some ⟨1, 2⟩ := by
  refine ⟨⟨(intersection_spec ⟨0, 2⟩ ⟨1, 3⟩ (by decide) (by decide)).1,
    fun _ => (intersection_spec ⟨0, 2⟩ ⟨2, 3⟩ (by decide) (by decide)).2 rfl⟩, by decide⟩

/-- C8: `Interval::new` fails (the modelled panic, `none`) exactly when
`start ≥ end`, and for `start < end` it returns the interval with those
endpoints. -/
theorem new_spec (s e : Int) :
    (Interval.new s e = none ↔ e ≤ s) ∧
    (s < e → Interval.new s e = some { start := s, stop := e }) := by
  constructor
  · unfold Interval.new
    split <;> simp <;> omega
  · intro h
    simp [Interval.new, h]

/-- Witness for `new_spec`: a rejected degenerate interval and an accepted
proper one. -/
theorem new_spec_witness :
    ((Interval.new 3 3 = none ↔ (3 : Int) ≤ 3) ∧
     ((3 : Int) < 3 → Interval.new 3 3 = some { start := 3, stop := 3 })) ∧
    ((1 : Int) < 2 ∧ Interval.new 1 2 = some { start := 1, stop := 2 }) :=
  ⟨new_spec 3 3, by decide, (new_spec 1 2).2 (by decide)⟩

/-- C2 (failing part): on disjoint intervals the `Difference` iterator
yields `a` on every pull — here three consecutive pulls each return
`a = [0,2)` against `b = [2,3)` — instead of yielding it exactly once as
the specification states; the iterator's no-intersection branch never
records that `a` has already been produced, so the sequence is not
finite. -/
theorem difference_disjoint_repeats :
    Interval.intersection ⟨0, 2⟩ ⟨2, 3⟩ = none ∧
    diffRun 3 (Interval.difference ⟨0, 2⟩ ⟨2, 3⟩) =
      [some ⟨0, 2⟩, some ⟨0, 2⟩, some ⟨0, 2⟩] := by decide

/-- C7 (amended): `free_time_in` never emits a zero- or negative-length
interval — the implementation filters its internal gap list down to
`duration > 0` before yielding anything. -/
theorem freeTimeIn_all_positive (cal : List Event) (rs re : Int) :
    (freeTimeIn cal rs re).all (fun g => decide (0 < g.duration)) = true := by
  simp only [freeTimeIn, List.all_eq_true, List.mem_filter]
  rintro g ⟨-, h⟩
  exact h

/-- C7 (counterexample to the claim as stated): a calendar with
overlapping busy events `[0,10)` and `[2,3)` over range `[0,20)`.  The
internal gap computation does produce a zero-length and a negative-length
gap, but `free_time_in` emits only the positive-length interval `[3,20)`,
so no zero- or negative-length interval is ever yielded to callers. -/
theorem freeTimeIn_no_nonpositive_output :
    freeGapsAux 0 (eventsIn [anonEvent 0 10, anonEvent 2 1] 0 20) 20 =
      [anonEvent 0 0, anonEvent 10 (-8), anonEvent 3 17] ∧
    freeTimeIn [anonEvent 0 10, anonEvent 2 1] 0 20 = [anonEvent 3 17] ∧
    (freeTimeIn [anonEvent 0 10, anonEvent 2 1] 0 20).all
      (fun g => decide (0 < g.duration)) = true := by decide

/-- C6: inserting an event into a calendar that does not yet hold its
`(date, duration)` key returns `true`; inserting an event with the same
key again returns `false`, leaves the calendar unchanged, and the calendar
then holds exactly one event for that key. -/
theorem addEvent_twice (cal : List Event) (e : Event)
    (h : ∀ f ∈ cal, cmpEvent f e ≠ Ordering.eq) :
    (addEvent cal e).1 = true ∧
    (addEvent (addEvent cal e).2 e).1 = false ∧
    (addEvent (addEvent cal e).2 e).2 = (addEvent cal e).2 ∧
    countKey (addEvent cal e).2 e = 1 := by
  have h2 : ∀ f ∈ cal, cmpEvent e f ≠ Ordering.eq := by
    intro f hf hc
    rw [cmpEvent_eq_iff] at hc
    exact h f hf ((cmpEvent_eq_iff f e).mpr ⟨hc.1.symm, hc.2.symm⟩)
  obtain ⟨c, hc⟩ := insertEvent_isSome e cal h2
  have hnone := insertEvent_again_none e cal c hc
  have hcount := countKey_insert e cal c hc
  have hzero := countKey_eq_zero cal e h
  simp [addEvent, hc, hnone, hcount, hzero]

/-- Witness for `addEvent_twice`: inserting `anonEvent 0 60` twice into
the empty calendar. -/
theorem addEvent_twice_witness :
    (addEvent [] (anonEvent 0 60)).1 = true ∧
    (addEvent (addEvent [] (anonEvent 0 60)).2 (anonEvent 0 60)).1 = false ∧
    (addEvent (addEvent [] (anonEvent 0 60)).2 (anonEvent 0 60)).2 =
      (addEvent [] (anonEvent 0 60)).2 ∧
    countKey (addEvent [] (anonEvent 0 60)).2 (anonEvent 0 60) = 1 :=
  addEvent_twice [] (anonEvent 0 60) (by simp)

/-- C9: adding an event `f` whose date and duration match a stored event
`e` returns `false` and leaves the calendar unchanged, so the calendar
still holds `e` with its original organizer and description rather than
`f`. -/
theorem addEvent_duplicate_key_noop (cal : List Event) (e f : Event)
    (hs : SortedKeys cal) (he : e ∈ cal)
    (hd : f.date = e.date) (hdur : f.duration = e.duration) :
    addEvent cal f = (false, cal) ∧ e ∈ (addEvent cal f).2 := by
  have hk : cmpEvent f e = Ordering.eq := (cmpEvent_eq_iff f e).mpr ⟨hd, hdur⟩
  have hn := insertEvent_none_of_key_mem f e cal hs he hk
  simp [addEvent, hn, he]

/-- Witness for `addEvent_duplicate_key_noop`: a stored meeting by alice
survives an attempted insertion of bob's event with the same key. -/
theorem addEvent_duplicate_key_noop_witness :
    addEvent [⟨"alice", "mtg", 0, 60⟩] ⟨"bob", "x", 0, 60⟩ =
      (false, [⟨"alice", "mtg", 0, 60⟩]) ∧
    (⟨"alice", "mtg", 0, 60⟩ : Event) ∈
      (addEvent [⟨"alice", "mtg", 0, 60⟩] ⟨"bob", "x", 0, 60⟩).2 :=
  addEvent_duplicate_key_noop [⟨"alice", "mtg", 0, 60⟩] ⟨"alice", "mtg", 0, 60⟩
    ⟨"bob", "x", 0, 60⟩ (by decide) (by simp) rfl rfl

theorem overlap_eq_none_iff (a b : Event) :
    Event.overlap a b = none ↔
      min (a.date + a.duration) (b.date + b.duration) ≤ max a.date b.date := by
  by_cases h : 0 < min (a.date + a.duration) (b.date + b.duration) - max a.date b.date
  · simp [Event.overlap, h]
    omega
  · simp [Event.overlap, h]
    omega

theorem freeGapsAux_spec (re : Int) :
    ∀ (busy : List Event) (c : Int),
      (∀ e ∈ busy, c ≤ e.date ∧ e.date < re ∧ 0 < e.duration) →
      List.Pairwise (fun a b => a.date + a.duration ≤ b.date) busy →
      ∀ g ∈ freeGapsAux c busy re, 0 < g.duration →
        c ≤ g.date ∧ g.date + g.duration ≤ re ∧
        ∀ e ∈ busy, Event.overlap g e = none := by
  intro busy
  induction busy with
  | nil =>
    intro c _ _ g hg hpos
    simp [freeGapsAux] at hg
    subst hg
    simp only [anonEvent_date, anonEvent_duration] at hpos ⊢
    exact ⟨le_refl _, by omega, by simp⟩
  | cons e es ih =>
    intro c hmem hpw g hg hpos
    have he := hmem e (by simp)
    rcases List.mem_cons.mp hg with rfl | hg2
    · simp only [anonEvent_date, anonEvent_duration] at hpos
      refine ⟨by simp, by simp only [anonEvent_date, anonEvent_duration]; omega, ?_⟩
      intro f hf
      rcases List.mem_cons.mp hf with rfl | hf2
      · rw [overlap_eq_none_iff]
        simp only [anonEvent_date, anonEvent_duration]
        omega
      · have hf3 := hmem f (by simp [hf2])
        have hef : e.date + e.duration ≤ f.date := (List.pairwise_cons.mp hpw).1 f hf2
        rw [overlap_eq_none_iff]
        simp only [anonEvent_date, anonEvent_duration]
        omega
    · have hm : ∀ f ∈ es, e.date + e.duration ≤ f.date ∧ f.date < re ∧ 0 < f.duration := by
        intro f hf
        have h1 := hmem f (by simp [hf])
        have h2 := (List.pairwise_cons.mp hpw).1 f hf
        exact ⟨h2, h1.2.1, h1.2.2⟩
      have hrec := ih (e.date + e.duration) hm (List.pairwise_cons.mp hpw).2 g hg2 hpos
      obtain ⟨h1, h2, h3⟩ := hrec
      refine ⟨by omega, h2, ?_⟩
      intro f hf
      rcases List.mem_cons.mp hf with rfl | hf2
      · rw [overlap_eq_none_iff]
        omega
      · exact h3 f hf2

/-- C3 (amended): when the stored events are pairwise disjoint and have
positive durations — the intended shape of a calendar — every interval
yielded by `free_time_in(range)` lies within the range and is disjoint
from the occupied interval of every stored event whose start falls in the
range.  (Without that hypothesis the property fails; see the
counterexample.) -/
theorem freeTimeIn_in_range_and_disjoint (cal : List Event) (rs re : Int) (g e : Event)
    (hchain : List.Pairwise (fun a b => a.date + a.duration ≤ b.date) cal)
    (hpos : ∀ x ∈ cal, 0 < x.duration)
    (hg : g ∈ freeTimeIn cal rs re)
    (he : e ∈ cal) (h1 : rs ≤ e.date) (h2 : e.date < re) :
    rs ≤ g.date ∧ g.date + g.duration ≤ re ∧ Event.overlap g e = none := by
  have hgf := List.mem_filter.mp hg
  have hg0 : g ∈ freeGapsAux rs (eventsIn cal rs re) re := hgf.1
  have hgpos : 0 < g.duration := by simpa using hgf.2
  have hbusymem : ∀ x ∈ eventsIn cal rs re, rs ≤ x.date ∧ x.date < re ∧ 0 < x.duration := by
    intro x hx
    rw [mem_eventsIn] at hx
    obtain ⟨hxc, hxl, hxr⟩ := hx
    have hxp := hpos x hxc
    simp only [keyLt, fromDate_date, fromDate_duration] at hxl hxr
    omega
  have hchainb : List.Pairwise (fun a b => a.date + a.duration ≤ b.date) (eventsIn cal rs re) :=
    List.Pairwise.sublist (List.filter_sublist _) hchain
  have hmain := freeGapsAux_spec re (eventsIn cal rs re) rs hbusymem hchainb g hg0 hgpos
  refine ⟨hmain.1, hmain.2.1, ?_⟩
  apply hmain.2.2
  rw [mem_eventsIn]
  have hep := hpos e he
  refine ⟨he, ?_, ?_⟩ <;> simp only [keyLt, fromDate_date, fromDate_duration] <;> omega

/-- Witness for `freeTimeIn_in_range_and_disjoint`: a calendar with two
disjoint events `[10,12)` and `[20,25)` over range `[0,30)`; the free
interval `[12,20)` stays inside the range and misses the event
`[10,12)`. -/
theorem freeTimeIn_in_range_and_disjoint_witness :
    (0 : Int) ≤ (anonEvent 12 8).date ∧
    (anonEvent 12 8).date + (anonEvent 12 8).duration ≤ 30 ∧
    Event.overlap (anonEvent 12 8) (anonEvent 10 2) = none :=
  freeTimeIn_in_range_and_disjoint [anonEvent 10 2, anonEvent 20 5] 0 30
    (anonEvent 12 8) (anonEvent 10 2) (by decide) (by decide) (by decide)
    (by decide) (by decide) (by decide)

/-- C3 (counterexample to the claim as stated): the calendar holding the
overlapping events `[0,10)` and `[2,3)` over range `[0,20)` yields the
free interval `[3,20)`, which overlaps the stored event `[0,10)` even
though that event starts inside the range. -/
theorem freeTimeIn_overlaps_stored_event :
    freeTimeIn [anonEvent 0 10, anonEvent 2 1] 0 20 = [anonEvent 3 17] ∧
    anonEvent 0 10 ∈ [anonEvent 0 10, anonEvent 2 1] ∧
    (0 : Int) ≤ (anonEvent 0 10).date ∧ (anonEvent 0 10).date < 20 ∧
    Event.overlap (anonEvent 3 17) (anonEvent 0 10) = some (anonEvent 3 7) := by
  decide

/-- C5 (amended): for a sorted calendar whose events all have non-negative
durations, `events_in(range)` yields exactly the stored events whose start
lies in `[range.start, range.end)`, in ascending key order.  (For
negative-duration events at the range boundaries the key comparison
against `(range.start, 0)` / `(range.end, 0)` decides membership instead;
see the counterexample.) -/
theorem eventsIn_spec (cal : List Event) (rs re : Int) (hs : SortedKeys cal)
    (hd : ∀ e ∈ cal, 0 ≤ e.duration) :
    eventsIn cal rs re = cal.filter (fun e => decide (rs ≤ e.date ∧ e.date < re)) ∧
    SortedKeys (eventsIn cal rs re) := by
  constructor
  · unfold eventsIn
    apply List.filter_congr
    intro e he
    have hde := hd e he
    rw [Bool.eq_iff_iff]
    simp only [Bool.and_eq_true, Bool.not_eq_true', ← Bool.not_eq_true, keyLtB_iff,
      keyLt, fromDate_date, fromDate_duration, decide_eq_true_eq]
    omega
  · exact List.Pairwise.sublist (List.filter_sublist _) hs

/-- Witness for `eventsIn_spec`: a two-event calendar probed over
`[3, 20)` keeps only the event starting at `10`. -/
theorem eventsIn_spec_witness :
    (eventsIn [anonEvent 0 5, anonEvent 10 5] 3 20 =
      List.filter (fun e => decide (3 ≤ e.date ∧ e.date < 20))
        [anonEvent 0 5, anonEvent 10 5]) ∧
    SortedKeys (eventsIn [anonEvent 0 5, anonEvent 10 5] 3 20) :=
  eventsIn_spec [anonEvent 0 5, anonEvent 10 5] 3 20 (by decide) (by decide)

/-- C5 (counterexample to the claim as stated): a stored event with start
`0` and duration `-1` is yielded by `events_in([-5, 0))` even though its
start does not lie in `[-5, 0)` — its `(start, duration)` key `(0, -1)`
sorts strictly below the probe key `(0, 0)`. -/
theorem eventsIn_includes_start_outside_range :
    eventsIn [anonEvent 0 (-1)] (-5) 0 = [anonEvent 0 (-1)] ∧
    ¬ ((-5 : Int) ≤ (anonEvent 0 (-1)).date ∧ (anonEvent 0 (-1)).date < 0) := by
  decide

theorem findTimeLoop_sound (dur : Int) (n : Nat) :
    ∀ (p : Event) (ps : List Event) (f : Event) (fs : List Event) (t : Int),
      ps.length + fs.length = n →
      findTimeLoop p ps f fs dur = some t →
      ∃ w ∈ p :: ps, ∃ g ∈ f :: fs, ∃ x, Event.overlap w g = some x ∧
        dur ≤ x.duration ∧ x.date = t := by
  induction n using Nat.strong_induction_on with
  | _ n ih =>
    intro p ps f fs t hlen h
    cases hov : Event.overlap p f with
    | none =>
      cases fs with
      | nil => cases ps <;> simp [findTimeLoop, hov] at h
      | cons f2 fs2 =>
        cases ps with
        | nil => simp [findTimeLoop, hov] at h
        | cons p2 ps2 =>
          simp only [findTimeLoop, hov] at h
          obtain ⟨w, hw, g, hg, x, hx⟩ :=
            ih (ps2.length + fs2.length) (by simp at hlen; omega) p2 ps2 f2 fs2 t rfl h
          exact ⟨w, List.mem_cons_of_mem _ hw, g, List.mem_cons_of_mem _ hg, x, hx⟩
    | some x =>
      by_cases hdur : dur ≤ x.duration
      · have hxt : x.date = t := by
          cases ps <;> cases fs <;> simp [findTimeLoop, hov, hdur] at h <;> exact h
        exact ⟨p, by simp, f, by simp, x, hov, hdur, hxt⟩
      · cases hcmp : cmpEvent p f with
        | lt =>
          cases ps with
          | nil => cases fs <;> simp [findTimeLoop, hov, hdur, hcmp] at h
          | cons p2 ps2 =>
            cases fs with
            | nil =>
              simp only [findTimeLoop, hov, hdur, hcmp] at h
              obtain ⟨w, hw, g, hg, x2, hx2⟩ :=
                ih (ps2.length + ([] : List Event).length) (by simp at hlen ⊢; omega)
                  p2 ps2 f [] t rfl h
              exact ⟨w, List.mem_cons_of_mem _ hw, g, hg, x2, hx2⟩
            | cons f2 fs2 =>
              simp only [findTimeLoop, hov, hdur, hcmp] at h
              obtain ⟨w, hw, g, hg, x2, hx2⟩ :=
                ih (ps2.length + (f2 :: fs2).length) (by simp at hlen ⊢; omega)
                  p2 ps2 f (f2 :: fs2) t rfl h
              exact ⟨w, List.mem_cons_of_mem _ hw, g, hg, x2, hx2⟩
        | gt =>
          cases fs with
          | nil => cases ps <;> simp [findTimeLoop, hov, hdur, hcmp] at h
          | cons f2 fs2 =>
            cases ps with
            | nil =>
              simp only [findTimeLoop, hov, hdur, hcmp] at h
              obtain ⟨w, hw, g, hg, x2, hx2⟩ :=
                ih (([] : List Event).length + fs2.length) (by simp at hlen ⊢; omega)
                  p [] f2 fs2 t rfl h
              exact ⟨w, hw, g, List.mem_cons_of_mem _ hg, x2, hx2⟩
            | cons p2 ps2 =>
              simp only [findTimeLoop, hov, hdur, hcmp] at h
              obtain ⟨w, hw, g, hg, x2, hx2⟩ :=
                ih ((p2 :: ps2).length + fs2.length) (by simp at hlen ⊢; omega)
                  p (p2 :: ps2) f2 fs2 t rfl h
              exact ⟨w, hw, g, List.mem_cons_of_mem _ hg, x2, hx2⟩
        | eq =>
          cases fs with
          | nil => cases ps <;> simp [findTimeLoop, hov, hdur, hcmp] at h
          | cons f2 fs2 =>
            cases ps with
            | nil => simp [findTimeLoop, hov, hdur, hcmp] at h
            | cons p2 ps2 =>
              simp only [findTimeLoop, hov, hdur, hcmp] at h
              obtain ⟨w, hw, g, hg, x2, hx2⟩ :=
                ih (ps2.length + fs2.length) (by simp at hlen; omega) p2 ps2 f2 fs2 t rfl h
              exact ⟨w, List.mem_cons_of_mem _ hw, g, List.mem_cons_of_mem _ hg, x2, hx2⟩

/-- C1 (amended, soundness): whenever `find_time` returns `Some t`, `t`
is the start of an intersection, of length at least `duration`, between
some candidate window and some free-time interval over the queried range;
a slot satisfying the claim's conditions (a)–(c) therefore starts at `t`.
(The converse direction of the claim fails: `find_time` can return `None`
although such a slot exists, because on disjoint current intervals it
advances both sequences; see the counterexample.) -/
theorem findTime_sound (cal : List Event) (dayStart dayEnd ts te dur t : Int)
    (h : findTime cal dayStart dayEnd ts te dur = some t) :
    ∃ w ∈ proposeFrom dayStart dayEnd ts te,
      ∃ g ∈ freeTimeIn cal (andTime dayStart ts) (andTime dayEnd te),
        ∃ x, Event.overlap w g = some x ∧ dur ≤ x.duration ∧ x.date = t := by
  unfold findTime at h
  cases hp : proposeFrom dayStart dayEnd ts te with
  | nil => rw [hp] at h; simp at h
  | cons p ps =>
    rw [hp] at h
    cases hf : freeTimeIn cal (andTime dayStart ts) (andTime dayEnd te) with
    | nil => rw [hf] at h; simp at h
    | cons f fs =>
      rw [hf] at h
      obtain ⟨w, hw, g, hg, x, hx⟩ :=
        findTimeLoop_sound dur (ps.length + fs.length) p ps f fs t rfl h
      exact ⟨w, hw, g, hg, x, hx⟩

/-- Witness for `findTime_sound`: the empty calendar over one day with
window `[36000, 39600)` and required duration `3600` yields `some 36000`,
and the guaranteed slot data exists. -/
theorem findTime_sound_witness :
    ∃ w ∈ proposeFrom 0 0 36000 39600,
      ∃ g ∈ freeTimeIn [] (andTime 0 36000) (andTime 0 39600),
        ∃ x, Event.overlap w g = some x ∧ (3600 : Int) ≤ x.duration ∧ x.date = 36000 :=
  findTime_sound [] 0 0 36000 39600 3600 36000 (by
    simp +decide [findTime, findTimeLoop, proposeFrom, freeTimeIn, eventsIn, freeGapsAux,
      andTime, anonEvent, Event.overlap, cmpEvent, cmpInt, keyLtB, fromDate])

/-- C1 (counterexample to the claim as stated): a calendar with one
24-hour event starting on day 0 at 10:00, searched over days 0–1 with
daily window 10:00–11:00 and duration one hour.  `find_time` returns
`None`, yet a slot satisfying (a)–(c) exists: day 1's candidate window
`[122400, 126000)` equals the free interval `[122400, 126000)` and is
3600 seconds long.  The algorithm discards both after finding day 0's
window disjoint from the first free interval. -/
theorem findTime_misses_valid_slot :
    findTime [anonEvent 36000 86400] 0 1 36000 39600 3600 = none ∧
    anonEvent 122400 3600 ∈ proposeFrom 0 1 36000 39600 ∧
    anonEvent 122400 3600 ∈
      freeTimeIn [anonEvent 36000 86400] (andTime 0 36000) (andTime 1 39600) ∧
    Event.overlap (anonEvent 122400 3600) (anonEvent 122400 3600) =
      some (anonEvent 122400 3600) ∧
    (3600 : Int) ≤ (anonEvent 122400 3600).duration := by
  refine ⟨?_, ?_, by decide, by decide, by decide⟩
  · simp +decide [findTime, findTimeLoop, proposeFrom, freeTimeIn, eventsIn, freeGapsAux,
      andTime, anonEvent, Event.overlap, cmpEvent, cmpInt, keyLtB, fromDate]
  · simp +decide [proposeFrom, andTime, anonEvent]

/-- C10: the candidate generator emits one window per day for every day
`d` with `dayStart ≤ d ≤ dayEnd`, the end day included; consequently, on
a calendar whose day-0 window is half booked, `find_time` over days 0–1
returns the slot starting on day 1 — the end day — at window start. -/
theorem proposeFrom_covers_end_day :
    (∀ s e ts te d : Int, s ≤ d → d ≤ e →
      anonEvent (andTime d ts) (te - ts) ∈ proposeFrom s e ts te) ∧
    findTime [anonEvent 36000 1800] 0 1 36000 39600 3600 = some (andTime 1 36000) := by
  constructor
  · intro s e ts te d hsd hde
    have key : ∀ (k : Nat), ∀ s2 : Int, s2 ≤ d → (d - s2).toNat = k →
        anonEvent (andTime d ts) (te - ts) ∈ proposeFrom s2 e ts te := by
      intro k
      induction k with
      | zero =>
        intro s2 hsd2 hk
        have hds : d = s2 := by omega
        subst hds
        rw [proposeFrom, if_pos (by omega)]
        simp
      | succ k ihk =>
        intro s2 hsd2 hk
        rw [proposeFrom, if_pos (by omega)]
        exact List.mem_cons_of_mem _ (ihk (s2 + 1) (by omega) (by omega))
    exact key (d - s).toNat s hsd rfl
  · simp +decide [findTime, findTimeLoop, proposeFrom, freeTimeIn, eventsIn, freeGapsAux,
      andTime, anonEvent, Event.overlap, cmpEvent, cmpInt, keyLtB, fromDate]

/-- Witness for `proposeFrom_covers_end_day`: day 1 of the range 0–2
receives a window, and the concrete search lands on the end day. -/
theorem proposeFrom_covers_end_day_witness :
    anonEvent (andTime 1 600) (1200 - 600) ∈ proposeFrom 0 2 600 1200 ∧
    findTime [anonEvent 36000 1800] 0 1 36000 39600 3600 = some (andTime 1 36000) :=
  ⟨proposeFrom_covers_end_day.1 0 2 600 1200 1 (by decide) (by decide),
   proposeFrom_covers_end_day.2⟩

end CalendarBot
